import Mathlib

/-!
Verification of the `command` package of futurist/better-command.

The escaper (`ReplaceShellString`), the placeholder expansion of `New`, and
the process-lifecycle supervisor (`Run`, `Output`, `CombinedOutput`,
`cleanup`, `AsUser`, the kill hook of `initCmd`) are embedded below as
executable Lean functions over `List Char` (Go strings; the Go loop indexes
bytes, which coincides with rune positions on the ASCII inputs all
properties are about).  Characters that are sensitive for the surrounding
tooling are written with hexadecimal escapes: `\x7b` = left brace,
`\x7d` = right brace, `\x27` = single quote, `\x22` = double quote,
`\x5c` = backslash.
-/

namespace BetterCommand

/-- The identifier alphabet, `shellVars` of command/shell.go: digits, upper
and lower case letters, and the underscore. -/
def shellVars : List Char :=
  ("0123456789ABCDEFGHIJKLMNOPQRSTUVWXYZ_abcdefghijklmnopqrstuvwxyz").toList

/-- The bare-safe classifier, the `shellNormal` set of command/shell.go:
built in `init` from the punctuation run and `shellVars`. -/
def shellNormal (c : Char) : Bool :=
  (("#%+-.~/:=").toList ++ shellVars).contains c

/-- Go `strings.Contains(shellVars, next)` where `next` is the one-byte
lookahead slice, or the empty string at the end of the input.  Go's
`Contains` of the empty string is `true`, which this embedding keeps: the
`none` lookahead passes the membership test. -/
def shellVarsContains : Option Char → Bool
  | none => true
  | some c => shellVars.contains c

/-- The loop body of `ReplaceShellString` (command/shell.go lines 31-69).
State `inVar` is 0 (no variable), 1 (inside a `$NAME` reference) or 2
(inside a `$\x7bNAME...` reference).  When `nonEscape` is true the whole
`if !nonEscape` block of the source is skipped and the character is copied
verbatim.  The lookaheads `next` and `next2` are the one-byte slices
`s[i+1:i+2]` and `s[i+2:i+3]`. -/
def replaceLoop (nonEscape : Bool) : Nat → List Char → List Char
  | _, [] => []
  | inVar, v :: rest =>
    if nonEscape then
      v :: replaceLoop nonEscape inVar rest
    else
      let next : Option Char := rest.head?
      let next2 : Option Char := rest.tail.head?
      let inVarA := if inVar = 1 ∧ shellVars.contains v = false then 0 else inVar
      if inVarA = 2 ∧ v ≠ '\x7b' ∧ shellVars.contains v = false then
        v :: replaceLoop nonEscape 0 rest
      else
        let inVarB := if v = '$' ∧ shellVarsContains next = true then 1 else inVarA
        let inVarC :=
          if v = '$' ∧ next = some '\x7b' ∧ shellVarsContains next2 = true then 2
          else inVarB
        if 0 < inVarC then
          v :: replaceLoop nonEscape inVarC rest
        else if shellNormal v = true then
          v :: replaceLoop nonEscape inVarC rest
        else
          '\x5c' :: v :: replaceLoop nonEscape inVarC rest

/-- `ReplaceShellString` of command/shell.go: run the loop from state 0. -/
def ReplaceShellString (s : List Char) (nonEscape : Bool) : List Char :=
  replaceLoop nonEscape 0 s

/-- Characterization of the escaping pass on input without `$`: every
character is classified in isolation; bare-safe characters pass through and
every other character is prefixed with one backslash. -/
def escAll (s : List Char) : List Char :=
  s.flatMap fun c => if shellNormal c = true then [c] else ['\x5c', c]

/-- Formalization of the side condition of claim C4, following its words: a
variable reference is a `$NAME` or a `$\x7bNAME...` substring with `NAME`
drawn from the identifier alphabet. -/
def startsVarRef (l : List Char) : Bool :=
  match l with
  | '$' :: '\x7b' :: d :: _ => shellVars.contains d
  | '$' :: c :: _ => shellVars.contains c
  | _ => false

/-- Whether any position of the string starts a variable reference. -/
def hasVarRef : List Char → Bool
  | [] => false
  | c :: rest => startsVarRef (c :: rest) || hasVarRef rest

end BetterCommand

namespace BetterCommand

theorem replaceLoop_nonEscape_id (inVar : Nat) (s : List Char) :
    replaceLoop true inVar s = s := by
  induction s generalizing inVar with
  | nil => rfl
  | cons v rest ih => simp [replaceLoop, ih]

/-- C1, amended.  With `nonEscape = true` (the flag value `New` passes for a
single-quoted token) the whole escaping block of `ReplaceShellString` is
skipped and the input is returned verbatim: no character receives an escape
marker. -/
theorem claim1_singleQuote_identity (s : List Char) :
    ReplaceShellString s true = s :=
  replaceLoop_nonEscape_id 0 s

/-- C1, counterexample to the claim as stated: the semicolon is outside the
bare-safe set, yet escaping it with `nonEscape = true` yields the input
unchanged, with no escape marker prefixed. -/
theorem claim1_counterexample :
    shellNormal ';' = false ∧ ReplaceShellString ((";").toList) true = (";").toList := by
  decide

/-- C1 witness: the amended theorem evaluated at a concrete input. -/
theorem claim1_witness :
    ReplaceShellString (("a;b $HOME").toList) true = ("a;b $HOME").toList :=
  claim1_singleQuote_identity (("a;b $HOME").toList)

theorem replaceLoop_braced (ys : List Char)
    (hys : ∀ y ∈ ys, y ∈ shellVars ∨ y = '\x7b')
    (d : Char) (hd : d ∉ shellVars) (hd2 : d ≠ '\x7b')
    (rest : List Char) :
    replaceLoop false 2 (ys ++ d :: rest) = ys ++ d :: replaceLoop false 0 rest := by
  induction ys with
  | nil =>
    rw [List.nil_append, replaceLoop.eq_def]
    simp [hd, hd2]
  | cons y ys ih =>
    have hy := hys y (by simp)
    have hys' : ∀ z ∈ ys, z ∈ shellVars ∨ z = '\x7b' :=
      fun z hz => hys z (by simp [hz])
    have hyd : y ≠ '$' := by
      rcases hy with hy | hy
      · intro hh
        rw [hh] at hy
        exact absurd hy (by decide)
      · intro hh
        rw [hh] at hy
        exact absurd hy (by decide)
    rw [List.cons_append, replaceLoop.eq_def]
    rcases hy with hy | hy
    · simp [hy, hyd, ih hys']
    · subst hy
      simp [hyd, ih hys']

/-- C3, amended.  In preserve-variables mode a braced reference entered at
the two characters dollar, brace followed by an identifier character stays
active only while the following characters are identifier characters or a
left brace; the first other character leaves the braced state and is itself
emitted verbatim, after which normal escaping resumes — the scan does not
extend to the matching right brace. -/
theorem claim3_amended (c : Char) (hc : c ∈ shellVars)
    (xs : List Char) (hxs : ∀ y ∈ xs, y ∈ shellVars ∨ y = '\x7b')
    (d : Char) (hd : d ∉ shellVars) (hd2 : d ≠ '\x7b')
    (rest : List Char) :
    ReplaceShellString ('$' :: '\x7b' :: c :: xs ++ d :: rest) false
      = '$' :: '\x7b' :: c :: xs ++ d :: ReplaceShellString rest false := by
  have hbr : replaceLoop false 2 (('\x7b' :: c :: xs) ++ d :: rest)
      = ('\x7b' :: c :: xs) ++ d :: replaceLoop false 0 rest := by
    refine replaceLoop_braced _ ?_ d hd hd2 rest
    intro y hy
    simp only [List.mem_cons] at hy
    rcases hy with rfl | rfl | hy
    · exact Or.inr rfl
    · exact Or.inl hc
    · exact hxs y hy
  have h2 : shellVarsContains (some '\x7b') = false := by decide
  have h3 : shellVarsContains (some c) = true := by
    simp [shellVarsContains, hc]
  unfold ReplaceShellString
  rw [replaceLoop.eq_def]
  simp only [List.cons_append] at hbr ⊢
  simp [h2, h3, hbr]

/-- C3, counterexample to the claim as stated: inside the braced reference
the colon is not an identifier character, so the scan ends there; the
closing brace is escaped rather than emitted verbatim. -/
theorem claim3_counterexample :
    ReplaceShellString (("$\x7bA:b\x7d").toList) false = ("$\x7bA:b\x5c\x7d").toList ∧
    ("$\x7bA:b\x5c\x7d").toList ≠ ("$\x7bA:b\x7d").toList := by
  decide

/-- C3 witness: the amended theorem at a concrete braced reference. -/
theorem claim3_witness :
    ReplaceShellString ('$' :: '\x7b' :: 'A' :: [] ++ ':' :: (("b\x7d").toList)) false
      = '$' :: '\x7b' :: 'A' :: [] ++ ':' :: ReplaceShellString (("b\x7d").toList) false :=
  claim3_amended 'A' (by decide) [] (by simp) ':' (by decide) (by decide) (("b\x7d").toList)

theorem replaceLoop_no_dollar (s : List Char) (h : '$' ∉ s) :
    replaceLoop false 0 s = escAll s := by
  induction s with
  | nil => rfl
  | cons v rest ih =>
    have hv : v ≠ '$' := by
      intro hh
      exact h (by simp [hh])
    have hrest : '$' ∉ rest := fun hm => h (by simp [hm])
    rw [replaceLoop.eq_def]
    by_cases hn : shellNormal v = true
    · simp [escAll, hv, hn, ih hrest]
    · simp [escAll, hv, hn, ih hrest]

theorem escAll_cons (v : Char) (rest : List Char) :
    escAll (v :: rest)
      = (if shellNormal v = true then [v] else ['\x5c', v]) ++ escAll rest := by
  simp [escAll]

theorem escAll_length_le (s : List Char) : s.length ≤ (escAll s).length := by
  induction s with
  | nil => simp [escAll]
  | cons v rest ih =>
    rw [escAll_cons]
    by_cases hn : shellNormal v = true
    · rw [if_pos hn]
      simp only [List.length_append, List.length_cons, List.length_nil]
      omega
    · rw [if_neg hn]
      simp only [List.length_append, List.length_cons, List.length_nil]
      omega

theorem escAll_eq_self (s : List Char) (h : ∀ c ∈ s, shellNormal c = true) :
    escAll s = s := by
  induction s with
  | nil => rfl
  | cons v rest ih =>
    have hv := h v (by simp)
    have hr : ∀ c ∈ rest, shellNormal c = true := fun c hc => h c (by simp [hc])
    rw [escAll_cons, if_pos hv, ih hr]
    rfl

theorem escAll_length_lt (s : List Char) (h : ∃ c ∈ s, shellNormal c = false) :
    s.length < (escAll s).length := by
  induction s with
  | nil => simp at h
  | cons v rest ih =>
    rw [escAll_cons]
    by_cases hn : shellNormal v = true
    · have hr : ∃ c ∈ rest, shellNormal c = false := by
        rcases h with ⟨c, hc, hcn⟩
        rcases List.mem_cons.mp hc with rfl | hc
        · rw [hn] at hcn
          cases hcn
        · exact ⟨c, hc, hcn⟩
      have := ih hr
      rw [if_pos hn]
      simp only [List.length_append, List.length_cons, List.length_nil]
      omega
    · have := escAll_length_le rest
      rw [if_neg hn]
      simp only [List.length_append, List.length_cons, List.length_nil]
      omega

/-- C4, amended.  For strings containing no dollar character at all, the
two flag values of the escaper agree exactly when every character is
bare-safe (both then return the string unchanged), and disagree as soon as
one character is outside the bare-safe set.  (The original claim, stated
for all strings without variable references, fails on a trailing dollar:
the empty lookahead passes the identifier test, see the counterexample.) -/
theorem claim4_amended (s : List Char) (h : '$' ∉ s) :
    ((∀ c ∈ s, shellNormal c = true) →
        ReplaceShellString s true = s ∧ ReplaceShellString s false = s) ∧
    ((∃ c ∈ s, shellNormal c = false) →
        ReplaceShellString s true ≠ ReplaceShellString s false) := by
  have h1 : ReplaceShellString s true = s := replaceLoop_nonEscape_id 0 s
  have h2 : ReplaceShellString s false = escAll s := replaceLoop_no_dollar s h
  constructor
  · intro hall
    exact ⟨h1, by rw [h2, escAll_eq_self s hall]⟩
  · intro hex
    rw [h1, h2]
    intro heq
    have hlt := escAll_length_lt s hex
    rw [← heq] at hlt
    omega

/-- C4, counterexample to the claim as stated: the one-character string
consisting of a dollar contains no variable reference and the dollar is
outside the bare-safe set, yet the two escaping modes agree on it — the
empty lookahead at the end of the string passes the identifier membership
test, so the dollar is emitted verbatim even in full-escape mode. -/
theorem claim4_counterexample :
    hasVarRef (("$").toList) = false ∧ shellNormal '$' = false ∧
    ReplaceShellString (("$").toList) true = ReplaceShellString (("$").toList) false := by
  decide

/-- C4 witness: the amended theorem applied at a bare-safe-only string and
at a string with an unsafe character. -/
theorem claim4_witness :
    (ReplaceShellString (("abc").toList) true = ("abc").toList ∧
      ReplaceShellString (("abc").toList) false = ("abc").toList) ∧
    ReplaceShellString (("a;b").toList) true ≠ ReplaceShellString (("a;b").toList) false :=
  ⟨(claim4_amended (("abc").toList) (by decide)).1 (by decide),
    (claim4_amended (("a;b").toList) (by decide)).2 ⟨';', by decide, by decide⟩⟩

/-- C6.  A dollar as the last character of the input is always emitted
verbatim in preserve-variables mode, whatever scanner state it is reached
in: the empty lookahead string passes the `strings.Contains` membership
test, so the scanner treats the dollar as opening a variable reference;
in particular the input consisting of the character a followed by a dollar
escapes to itself. -/
theorem claim6_trailing_dollar :
    (∀ inVar : Nat, replaceLoop false inVar ['$'] = ['$']) ∧
    ReplaceShellString (("a$").toList) false = ("a$").toList ∧
    ReplaceShellString (("$").toList) false = ("$").toList := by
  refine ⟨?_, by decide, by decide⟩
  intro inVar
  rw [replaceLoop.eq_def]
  by_cases h1 : inVar = 1
  · subst h1
    decide
  · by_cases h2 : inVar = 2
    · subst h2
      decide
    · simp [h1, h2, shellVarsContains, replaceLoop]

/-- C6 witness: the scanner-state fact of the theorem at state five. -/
theorem claim6_witness : replaceLoop false 5 ['$'] = ['$'] :=
  claim6_trailing_dollar.1 5

/-- Quoting mode of a token: unquoted, double-quoted or single-quoted
(spec section 4.3). -/
inductive QuoteMode
  | bare
  | double
  | single
deriving DecidableEq

/-- A token: a run of template text tagged with its quoting mode. -/
structure Token where
  text : List Char
  mode : QuoteMode
deriving DecidableEq

/-- The flag `New` passes to `ReplaceShellString` for this token: true
exactly for a single-quoted token (spec section 4.4: preserveVariables is
tied to the token mode being single-quoted). -/
def Token.IsNonEscape (t : Token) : Bool :=
  match t.mode with
  | QuoteMode.single => true
  | _ => false

/-- Modelled from the spec: the quote-aware tokenizer of section 4.3 (the
shlex package of this repository, which is not under src/).  It splits the
template on shell-style quote boundaries in a single pass: a single-quoted
run becomes one single-quoted token, a double-quoted run one double-quoted
token, and the runs between them bare tokens.  Token text keeps every
character of the source, quote delimiters included, so that concatenating
the token texts reproduces the element, as the repository tests show
(quoted runs reappear verbatim in the joined output); placeholder markers
inside token text are preserved verbatim.  The accumulator holds the
current token text in reverse. -/
def tokenizeLoop (mode : QuoteMode) (acc : List Char) : List Char → List Token
  | [] => if acc.isEmpty then [] else [⟨acc.reverse, mode⟩]
  | c :: rest =>
    match mode with
    | QuoteMode.bare =>
      if c = '\x27' then
        if acc.isEmpty then tokenizeLoop QuoteMode.single [c] rest
        else ⟨acc.reverse, QuoteMode.bare⟩ :: tokenizeLoop QuoteMode.single [c] rest
      else if c = '\x22' then
        if acc.isEmpty then tokenizeLoop QuoteMode.double [c] rest
        else ⟨acc.reverse, QuoteMode.bare⟩ :: tokenizeLoop QuoteMode.double [c] rest
      else tokenizeLoop QuoteMode.bare (c :: acc) rest
    | QuoteMode.single =>
      if c = '\x27' then
        ⟨(c :: acc).reverse, QuoteMode.single⟩ :: tokenizeLoop QuoteMode.bare [] rest
      else tokenizeLoop QuoteMode.single (c :: acc) rest
    | QuoteMode.double =>
      if c = '\x22' then
        ⟨(c :: acc).reverse, QuoteMode.double⟩ :: tokenizeLoop QuoteMode.bare [] rest
      else tokenizeLoop QuoteMode.double (c :: acc) rest

/-- Modelled from the spec: entry point of the tokenizer. -/
def tokenize (s : List Char) : List Token :=
  tokenizeLoop QuoteMode.bare [] s

/-- The placeholder marker, the two-character sequence percent, s. -/
def pctS : List Char := ['%', 's']

/-- Go `strings.Contains(s, pat)`: some position of `s` starts with `pat`
(true for the empty pattern). -/
def containsSub (pat : List Char) : List Char → Bool
  | [] => pat.isEmpty
  | c :: rest => pat.isPrefixOf (c :: rest) || containsSub pat rest

/-- Go `strings.Replace(s, pat, rep, 1)`: replace the leftmost occurrence
of `pat` by `rep`, leaving the string unchanged when there is none. -/
def replaceFirst (pat rep : List Char) : List Char → List Char
  | [] => []
  | c :: rest =>
    if pat.isPrefixOf (c :: rest) then rep ++ (c :: rest).drop pat.length
    else c :: replaceFirst pat rep rest

/-- Number of (non-overlapping, leftmost-first) placeholder markers in a
string, as `strings.Count(s, pctS)` would count them. -/
def countMarkers : List Char → Nat
  | '%' :: 's' :: rest => countMarkers rest + 1
  | _ :: rest => countMarkers rest
  | [] => 0

/-- The inner substitution loop of `New` (command/shell.go lines 232-236):
while the token text contains the marker, replace its leftmost occurrence
by the escaped next argument.  Go indexes `parts[i]` and panics out of
range when the arguments are exhausted while a marker is still present;
the panic is modelled as `none`.  Returns the rewritten text and the
arguments not yet consumed. -/
def substLoop (nonEscape : Bool) : List (List Char) → List Char → Option (List Char × List (List Char))
  | parts, s =>
    if containsSub pctS s = true then
      match parts with
      | [] => none
      | p :: restParts =>
        substLoop nonEscape restParts (replaceFirst pctS (ReplaceShellString p nonEscape) s)
    else
      some (s, parts)

/-- The token loop of `New` for one vector element: tokens are processed in
order and the argument cursor `i` is threaded through them (it is not reset
between tokens of the same element). -/
def expandTokens : List Token → List (List Char) → Option (List (List Char) × List (List Char))
  | [], parts => some ([], parts)
  | t :: ts, parts =>
    match substLoop t.IsNonEscape parts t.text with
    | none => none
    | some (s, parts2) =>
      match expandTokens ts parts2 with
      | none => none
      | some (c, parts3) => some (s :: c, parts3)

/-- Processing of one element of `cmdArgs` in `New`: tokenize it, run the
substitution over its tokens starting from argument index 0 (the source
sets `i := 0` inside the per-element loop), and join the rewritten token
texts with the empty separator. -/
def expandElement (v : List Char) (parts : List (List Char)) : Option (List Char) :=
  match expandTokens (tokenize v) parts with
  | none => none
  | some (c, _) => some c.flatten

/-- The argument-vector rewriting of `New` (command/shell.go lines 222-241):
every element is expanded independently against the full argument list. -/
def NewArgs : List (List Char) → List (List Char) → Option (List (List Char))
  | [], _ => some []
  | v :: vs, parts =>
    match expandElement v parts, NewArgs vs parts with
    | some s, some rest => some (s :: rest)
    | _, _ => none

/-- C5.  Equal marker and argument counts do not guarantee successful
expansion: an argument whose own text contains the marker (its characters
are bare-safe and survive escaping unchanged) is re-found by the
substitution loop, which then consumes a further argument past the end of
the supplied list — the out-of-range access modelled by `none`. -/
theorem claim5_marker_inside_argument :
    countMarkers (("%s").toList) = 1 ∧
    ReplaceShellString (("a%sb").toList) false = ("a%sb").toList ∧
    NewArgs [("%s").toList] [("a%sb").toList] = none := by
  decide

/-- C2, counterexample to the claim as stated: the argument index is reset
to zero for every vector element, so with the two-element template both
elements consume the first argument; the second argument is never used,
although marker count and argument count agree. -/
theorem claim2_counterexample :
    countMarkers (("%s").toList) + countMarkers (("%s").toList) = 2 ∧
    NewArgs [("%s").toList, ("%s").toList] [("a").toList, ("b").toList]
      = some [("a").toList, ("a").toList] ∧
    some [("a").toList, ("a").toList] ≠ some [("a").toList, ("b").toList] := by
  decide

theorem containsSub_eq_false (s : List Char) (h : '%' ∉ s) :
    containsSub pctS s = false := by
  induction s with
  | nil => rfl
  | cons c rest ih =>
    have hc : c ≠ '%' := by
      intro hh
      exact h (by simp [hh])
    have hr : '%' ∉ rest := fun hm => h (by simp [hm])
    simp [containsSub, pctS, List.isPrefixOf]
    refine ⟨fun hh => absurd hh.symm hc, ?_⟩
    simpa [pctS] using ih hr

theorem containsSub_marker (xs ys : List Char) (h : '%' ∉ xs) :
    containsSub pctS (xs ++ '%' :: 's' :: ys) = true := by
  induction xs with
  | nil => simp [containsSub, pctS, List.isPrefixOf]
  | cons c rest ih =>
    have hr : '%' ∉ rest := fun hm => h (by simp [hm])
    simp [containsSub, ih hr]

theorem replaceFirst_marker (xs ys rep : List Char) (h : '%' ∉ xs) :
    replaceFirst pctS rep (xs ++ '%' :: 's' :: ys) = xs ++ rep ++ ys := by
  induction xs with
  | nil => simp [replaceFirst, pctS, List.isPrefixOf]
  | cons c rest ih =>
    have hc : c ≠ '%' := by
      intro hh
      exact h (by simp [hh])
    have hr : '%' ∉ rest := fun hm => h (by simp [hm])
    rw [List.cons_append, replaceFirst]
    rw [ih hr]
    have hpre : pctS.isPrefixOf (c :: (rest ++ '%' :: 's' :: ys)) = false := by
      simp [pctS, List.isPrefixOf]
      intro hh
      exact absurd hh.symm hc
    simp [hpre]

theorem replaceLoop_cons_eq (ne : Bool) (v : Char) (rest : List Char) (inVar : Nat) :
    replaceLoop ne inVar (v :: rest) =
      if ne = true then v :: replaceLoop ne inVar rest
      else
        if (if inVar = 1 ∧ shellVars.contains v = false then 0 else inVar) = 2 ∧
            v ≠ '\x7b' ∧ shellVars.contains v = false then
          v :: replaceLoop ne 0 rest
        else
          if 0 < (if v = '$' ∧ rest.head? = some '\x7b' ∧ shellVarsContains rest.tail.head? = true then 2
              else if v = '$' ∧ shellVarsContains rest.head? = true then 1
              else if inVar = 1 ∧ shellVars.contains v = false then 0 else inVar) then
            v :: replaceLoop ne
              (if v = '$' ∧ rest.head? = some '\x7b' ∧ shellVarsContains rest.tail.head? = true then 2
                else if v = '$' ∧ shellVarsContains rest.head? = true then 1
                else if inVar = 1 ∧ shellVars.contains v = false then 0 else inVar) rest
          else if shellNormal v = true then
            v :: replaceLoop ne
              (if v = '$' ∧ rest.head? = some '\x7b' ∧ shellVarsContains rest.tail.head? = true then 2
                else if v = '$' ∧ shellVarsContains rest.head? = true then 1
                else if inVar = 1 ∧ shellVars.contains v = false then 0 else inVar) rest
          else
            '\x5c' :: v :: replaceLoop ne
              (if v = '$' ∧ rest.head? = some '\x7b' ∧ shellVarsContains rest.tail.head? = true then 2
                else if v = '$' ∧ shellVarsContains rest.head? = true then 1
                else if inVar = 1 ∧ shellVars.contains v = false then 0 else inVar) rest := rfl

theorem replaceLoop_cons_shape (ne : Bool) (v : Char) (rest : List Char) (inVar : Nat) :
    ∃ j, replaceLoop ne inVar (v :: rest) = v :: replaceLoop ne j rest ∨
      replaceLoop ne inVar (v :: rest) = '\x5c' :: v :: replaceLoop ne j rest := by
  rw [replaceLoop_cons_eq]
  cases ne with
  | true => exact ⟨inVar, Or.inl (by simp)⟩
  | false =>
    simp only [Bool.false_eq_true, if_false]
    by_cases hG : (if inVar = 1 ∧ shellVars.contains v = false then 0 else inVar) = 2 ∧
        v ≠ '\x7b' ∧ shellVars.contains v = false
    · rw [if_pos hG]
      exact ⟨0, Or.inl rfl⟩
    · rw [if_neg hG]
      by_cases h0 : 0 < (if v = '$' ∧ rest.head? = some '\x7b' ∧ shellVarsContains rest.tail.head? = true then 2
          else if v = '$' ∧ shellVarsContains rest.head? = true then 1
          else if inVar = 1 ∧ shellVars.contains v = false then 0 else inVar)
      · rw [if_pos h0]
        exact ⟨_, Or.inl rfl⟩
      · rw [if_neg h0]
        by_cases hN : shellNormal v = true
        · rw [if_pos hN]
          exact ⟨_, Or.inl rfl⟩
        · rw [if_neg hN]
          exact ⟨_, Or.inr rfl⟩

theorem mem_replaceLoop (ne : Bool) (s : List Char) :
    ∀ (inVar : Nat) (c : Char), c ∈ replaceLoop ne inVar s → c ∈ s ∨ c = '\x5c' := by
  induction s with
  | nil =>
    intro inVar c hc
    simp [replaceLoop] at hc
  | cons v rest ih =>
    intro inVar c hc
    rcases replaceLoop_cons_shape ne v rest inVar with ⟨j, hsh | hsh⟩ <;> rw [hsh] at hc
    · rcases List.mem_cons.mp hc with rfl | hc
      · exact Or.inl (List.mem_cons_self _ _)
      · rcases ih j c hc with h | h
        · exact Or.inl (List.mem_cons_of_mem _ h)
        · exact Or.inr h
    · rcases List.mem_cons.mp hc with rfl | hc
      · exact Or.inr rfl
      · rcases List.mem_cons.mp hc with rfl | hc
        · exact Or.inl (List.mem_cons_self _ _)
        · rcases ih j c hc with h | h
          · exact Or.inl (List.mem_cons_of_mem _ h)
          · exact Or.inr h

theorem no_pct_escape (p : List Char) (ne : Bool) (h : '%' ∉ p) :
    '%' ∉ ReplaceShellString p ne := by
  intro hm
  rcases mem_replaceLoop ne p 0 '%' hm with hh | hh
  · exact h hh
  · cases hh

/-- Interleaving of literal segments with fill strings: the j-th fill goes
between the j-th and the (j+1)-th segment.  With the marker as every fill
this describes a template; with the escaped arguments, its expansion. -/
def sandwich : List (List Char) → List (List Char) → List Char
  | s :: ss, f :: fs => s ++ f ++ sandwich ss fs
  | s :: _, [] => s
  | [], _ => []

theorem mem_sandwich (c : Char) :
    ∀ (ss fs : List (List Char)), c ∈ sandwich ss fs →
      (∃ t ∈ ss, c ∈ t) ∨ (∃ f ∈ fs, c ∈ f) := by
  intro ss
  induction ss with
  | nil =>
    intro fs hc
    simp [sandwich] at hc
  | cons s ssRest ih =>
    intro fs hc
    cases fs with
    | nil =>
      simp only [sandwich] at hc
      exact Or.inl ⟨s, by simp, hc⟩
    | cons f fsRest =>
      simp only [sandwich, List.append_assoc, List.mem_append] at hc
      rcases hc with hc | hc | hc
      · exact Or.inl ⟨s, by simp, hc⟩
      · exact Or.inr ⟨f, by simp, hc⟩
      · rcases ih fsRest hc with ⟨t, ht, hct⟩ | ⟨g, hg, hcg⟩
        · exact Or.inl ⟨t, List.mem_cons_of_mem _ ht, hct⟩
        · exact Or.inr ⟨g, List.mem_cons_of_mem _ hg, hcg⟩

theorem substLoop_nil_eq (ne : Bool) (s : List Char) :
    substLoop ne [] s
      = if containsSub pctS s = true then none else some (s, []) := rfl

theorem substLoop_cons_eq (ne : Bool) (p : List Char) (restParts : List (List Char)) (s : List Char) :
    substLoop ne (p :: restParts) s
      = if containsSub pctS s = true then
          substLoop ne restParts (replaceFirst pctS (ReplaceShellString p ne) s)
        else some (s, p :: restParts) := rfl

theorem substLoop_sandwich (args : List (List Char)) :
    ∀ (P : List Char) (segs : List (List Char)),
      '%' ∉ P → segs.length = args.length + 1 →
      (∀ t ∈ segs, '%' ∉ t) → (∀ a ∈ args, '%' ∉ a) →
      substLoop false args (P ++ sandwich segs (args.map fun _ => pctS))
        = some (P ++ sandwich segs (args.map fun a => ReplaceShellString a false), []) := by
  induction args with
  | nil =>
    intro P segs hP hlen hsegs hargs
    cases segs with
    | nil => simp at hlen
    | cons s0 ss =>
      cases ss with
      | cons s1 ss2 => simp at hlen
      | nil =>
        have hps : '%' ∉ P ++ s0 := by
          intro hm
          rcases List.mem_append.mp hm with hm | hm
          · exact hP hm
          · exact hsegs s0 (by simp) hm
        rw [substLoop_nil_eq]
        simp [sandwich, containsSub_eq_false _ hps]
  | cons a as ih =>
    intro P segs hP hlen hsegs hargs
    cases segs with
    | nil => simp at hlen
    | cons s0 ss =>
      have hlen2 : ss.length = as.length + 1 := by
        simp at hlen
        omega
      have hP0 : '%' ∉ P ++ s0 := by
        intro hm
        rcases List.mem_append.mp hm with hm | hm
        · exact hP hm
        · exact hsegs s0 (by simp) hm
      have hss : ∀ t ∈ ss, '%' ∉ t := fun t ht => hsegs t (by simp [ht])
      have has : ∀ b ∈ as, '%' ∉ b := fun b hb => hargs b (by simp [hb])
      have hea : '%' ∉ ReplaceShellString a false :=
        no_pct_escape a false (hargs a (by simp))
      have hshape : P ++ sandwich (s0 :: ss) ((a :: as).map fun _ => pctS)
          = (P ++ s0) ++ '%' :: 's' :: sandwich ss (as.map fun _ => pctS) := by
        simp [sandwich, pctS]
      rw [hshape, substLoop_cons_eq]
      rw [containsSub_marker _ _ hP0]
      simp only [if_pos]
      rw [replaceFirst_marker _ _ _ hP0]
      have hrec := ih ((P ++ s0) ++ ReplaceShellString a false) ss
        (by
          intro hm
          rcases List.mem_append.mp hm with hm | hm
          · exact hP0 hm
          · exact hea hm)
        hlen2 hss has
      have hshape2 : ((P ++ s0) ++ ReplaceShellString a false)
            ++ sandwich ss (as.map fun b => ReplaceShellString b false)
          = P ++ sandwich (s0 :: ss) ((a :: as).map fun b => ReplaceShellString b false) := by
        simp [sandwich]
      rw [← hshape2]
      rw [← hrec]

theorem tokenizeLoop_bare_noquote (s : List Char) :
    ∀ acc : List Char, (∀ c ∈ s, c ≠ '\x27' ∧ c ≠ '\x22') →
      tokenizeLoop QuoteMode.bare acc s
        = if acc.reverse ++ s = [] then [] else [⟨acc.reverse ++ s, QuoteMode.bare⟩] := by
  induction s with
  | nil =>
    intro acc h
    by_cases ha : acc = []
    · subst ha
      simp [tokenizeLoop]
    · have : acc.isEmpty = false := by
        simp [List.isEmpty_iff, ha]
      simp [tokenizeLoop, this, ha]
  | cons c rest ih =>
    intro acc h
    have hc := h c (by simp)
    have hrest : ∀ d ∈ rest, d ≠ '\x27' ∧ d ≠ '\x22' := fun d hd => h d (by simp [hd])
    rw [tokenizeLoop.eq_def]
    simp only [hc.1, hc.2, if_false, if_neg]
    rw [ih (c :: acc) hrest]
    simp

/-- Modelled-tokenizer fact: an element containing no quote character is a
single bare token (or no token at all when empty). -/
theorem tokenize_noquote (s : List Char) (h : ∀ c ∈ s, c ≠ '\x27' ∧ c ≠ '\x22') :
    tokenize s = if s = [] then [] else [⟨s, QuoteMode.bare⟩] := by
  rw [tokenize, tokenizeLoop_bare_noquote s [] h]
  simp

theorem expandElement_no_marker (v : List Char)
    (hq : ∀ c ∈ v, c ≠ '\x27' ∧ c ≠ '\x22') (hp : '%' ∉ v)
    (parts : List (List Char)) :
    expandElement v parts = some v := by
  rw [expandElement, tokenize_noquote v hq]
  by_cases hv : v = []
  · subst hv
    simp [expandTokens]
  · rw [if_neg hv]
    rw [expandTokens]
    have hsub : substLoop (Token.IsNonEscape ⟨v, QuoteMode.bare⟩) parts v
        = some (v, parts) := by
      cases parts with
      | nil => rw [substLoop_nil_eq]; simp [containsSub_eq_false v hp]
      | cons p ps => rw [substLoop_cons_eq]; simp [containsSub_eq_false v hp]
    rw [hsub]
    simp [expandTokens]

theorem NewArgs_unchanged (vs : List (List Char)) (args : List (List Char))
    (h : ∀ t ∈ vs, ∀ c ∈ t, c ≠ '%' ∧ c ≠ '\x27' ∧ c ≠ '\x22') :
    NewArgs vs args = some vs := by
  induction vs with
  | nil => rfl
  | cons v vsRest ih =>
    have hv := h v (by simp)
    have hq : ∀ c ∈ v, c ≠ '\x27' ∧ c ≠ '\x22' := fun c hc => ⟨(hv c hc).2.1, (hv c hc).2.2⟩
    have hp : '%' ∉ v := fun hm => (hv '%' hm).1 rfl
    rw [NewArgs]
    rw [expandElement_no_marker v hq hp args]
    rw [ih (fun t ht => h t (by simp [ht]))]

theorem NewArgs_append (xs ys args : List (List Char)) :
    NewArgs (xs ++ ys) args
      = match NewArgs xs args, NewArgs ys args with
        | some a, some b => some (a ++ b)
        | _, _ => none := by
  induction xs with
  | nil =>
    simp [NewArgs]
    cases NewArgs ys args <;> rfl
  | cons x xsRest ih =>
    rw [List.cons_append, NewArgs, ih, NewArgs]
    cases expandElement x args <;> cases NewArgs xsRest args <;> cases NewArgs ys args <;> rfl

theorem expandElement_sandwich (segs args : List (List Char))
    (hlen : segs.length = args.length + 1)
    (hsegs : ∀ t ∈ segs, ∀ c ∈ t, c ≠ '%' ∧ c ≠ '\x27' ∧ c ≠ '\x22')
    (hargs : ∀ a ∈ args, ∀ c ∈ a, c ≠ '%') :
    expandElement (sandwich segs (args.map fun _ => pctS)) args
      = some (sandwich segs (args.map fun a => ReplaceShellString a false)) := by
  cases args with
  | nil =>
    simp only [List.map_nil]
    cases segs with
    | nil => simp at hlen
    | cons s0 ss =>
      cases ss with
      | cons s1 ss2 => simp at hlen
      | nil =>
        have h0 := hsegs s0 (by simp)
        exact expandElement_no_marker s0
          (fun c hc => ⟨(h0 c hc).2.1, (h0 c hc).2.2⟩)
          (fun hm => (h0 '%' hm).1 rfl) []
  | cons a as =>
    have hq : ∀ c ∈ sandwich segs ((a :: as).map fun _ => pctS), c ≠ '\x27' ∧ c ≠ '\x22' := by
      intro c hc
      rcases mem_sandwich c _ _ hc with ⟨t, ht, hct⟩ | ⟨f, hf, hcf⟩
      · exact ⟨(hsegs t ht c hct).2.1, (hsegs t ht c hct).2.2⟩
      · have hfp : f = pctS := by
          rcases List.mem_map.mp hf with ⟨x, _, hx⟩
          exact hx.symm
        subst hfp
        simp [pctS] at hcf
        rcases hcf with rfl | rfl
        · exact ⟨by decide, by decide⟩
        · exact ⟨by decide, by decide⟩
    have hne : sandwich segs ((a :: as).map fun _ => pctS) ≠ [] := by
      cases segs with
      | nil => simp at hlen
      | cons s0 ss => simp [sandwich, pctS]
    rw [expandElement, tokenize_noquote _ hq, if_neg hne]
    have hsub := substLoop_sandwich (a :: as) [] segs (by simp) hlen
      (fun t ht hm => (hsegs t ht '%' hm).1 rfl)
      (fun b hb hm => (hargs b hb '%' hm) rfl)
    simp only [List.nil_append] at hsub
    have hmode : Token.IsNonEscape
        ⟨sandwich segs ((a :: as).map fun _ => pctS), QuoteMode.bare⟩ = false := rfl
    simp only [expandTokens, hmode, hsub]
    simp

/-- C2, amended.  The argument cursor of `New` is reset to zero for every
vector element, not shared across elements.  Within a single element the
claim holds: the j-th placeholder in scan order is replaced by the escaped
j-th argument, each argument of an exactly matching count being consumed
once in order, and elements without placeholders are left unchanged.  The
statement expands a vector whose one placeholder-carrying element is the
interleaving of marker-free, quote-free segments with one marker per
argument. -/
theorem claim2_amended (segs args pre post : List (List Char))
    (hlen : segs.length = args.length + 1)
    (hsegs : ∀ t ∈ segs, ∀ c ∈ t, c ≠ '%' ∧ c ≠ '\x27' ∧ c ≠ '\x22')
    (hargs : ∀ a ∈ args, ∀ c ∈ a, c ≠ '%')
    (hpre : ∀ t ∈ pre, ∀ c ∈ t, c ≠ '%' ∧ c ≠ '\x27' ∧ c ≠ '\x22')
    (hpost : ∀ t ∈ post, ∀ c ∈ t, c ≠ '%' ∧ c ≠ '\x27' ∧ c ≠ '\x22') :
    NewArgs (pre ++ sandwich segs (args.map fun _ => pctS) :: post) args
      = some (pre ++ sandwich segs (args.map fun a => ReplaceShellString a false) :: post) := by
  rw [NewArgs_append, NewArgs_unchanged pre args hpre]
  rw [NewArgs, expandElement_sandwich segs args hlen hsegs hargs,
    NewArgs_unchanged post args hpost]

/-- C2 witness: the amended theorem at the template vector sh, -c,
echo-space-marker-space-marker with two arguments. -/
theorem claim2_witness :
    NewArgs ([("sh").toList, ("-c").toList] ++
        sandwich [("echo ").toList, (" ").toList, []]
          (([("a1").toList, ("b2").toList]).map fun _ => pctS) :: [])
      ([("a1").toList, ("b2").toList])
      = some ([("sh").toList, ("-c").toList] ++
          sandwich [("echo ").toList, (" ").toList, []]
            (([("a1").toList, ("b2").toList]).map fun a => ReplaceShellString a false) :: []) :=
  claim2_amended [("echo ").toList, (" ").toList, []]
    [("a1").toList, ("b2").toList] [("sh").toList, ("-c").toList] []
    (by decide) (by decide) (by decide) (by decide) (by decide)

/-- Error values a terminal operation can return.  Configuration and
process errors carry an abstract numeric identity so that distinct
underlying errors stay distinct. -/
inductive CmdError
  | recorded (id : Nat)
  | stdoutAlreadySet
  | stderrAlreadySet
  | startFailed (id : Nat)
  | waitFailed (id : Nat)
  | asUserWindows
  | asUserLookup (id : Nat)
  | asUserParse (id : Nat)
deriving DecidableEq

/-- Observable actions of the supervisor: a process start (with its pid), a
start hook invocation, an exit hook invocation, and a context cancel. -/
inductive Event
  | started (pid : Nat)
  | startHook (h : Nat)
  | exitHook (h : Nat)
  | cancel
deriving DecidableEq

/-- The mutable fields of `Command` (command/shell.go lines 72-85) that the
claims are about.  Stream bindings are tracked as set-or-not flags (the Go
fields are nil-or-bound writers); hooks are abstract identifiers invoked by
emitting events; `cancelSet` is whether `c.Cancel` is non-nil. -/
structure CommandState where
  lastError : Option CmdError
  stdoutSet : Bool
  stderrSet : Bool
  onstart : List Nat
  onexit : List Nat
  pid : Nat
  cancelSet : Bool
  credUid : Option Nat
  env : List (List Char)
deriving DecidableEq

/-- Outcome of the external process primitive for one run: whether `Start`
fails, the pid assigned on success, and whether `Wait` reports an error. -/
structure ExecEnv where
  startFail : Option Nat
  pid : Nat
  waitFail : Option Nat
deriving DecidableEq

/-- `cleanup` (command/shell.go lines 260-271): under the mutex the hook
list is snapshotted and cleared, then the snapshotted hooks run, then the
cancel function is called when still set.  Returns the new state and the
emitted events. -/
def cleanup (c : CommandState) : CommandState × List Event :=
  ({ c with onexit := [] },
    c.onexit.map Event.exitHook ++ (if c.cancelSet then [Event.cancel] else []))

/-- `OnExit` (command/shell.go lines 181-186): appends hooks under the
mutex. -/
def OnExit (c : CommandState) (fs : List Nat) : CommandState :=
  { c with onexit := c.onexit ++ fs }

/-- Iterated cleanup: the hook events emitted when cleanup is triggered `n`
times in sequence (the mutex serializes concurrent triggers). -/
def cleanupN : Nat → CommandState → CommandState × List Event
  | 0, c => (c, [])
  | n + 1, c =>
    ((cleanupN n (cleanup c).1).1, (cleanup c).2 ++ (cleanupN n (cleanup c).1).2)

/-- `Run` (command/shell.go lines 288-307): cleanup is deferred on every
path; a recorded `LastError` is returned first; a `Start` failure is
returned next; otherwise the pid is recorded, the start hooks run and the
`Wait` outcome is returned. -/
def Run (c : CommandState) (env : ExecEnv) : Option CmdError × CommandState × List Event :=
  match c.lastError with
  | some e => (some e, (cleanup c).1, (cleanup c).2)
  | none =>
    match env.startFail with
    | some id => (some (CmdError.startFailed id), (cleanup c).1, (cleanup c).2)
    | none =>
      ((env.waitFail).map CmdError.waitFailed,
        (cleanup { c with pid := env.pid }).1,
        (Event.started env.pid :: c.onstart.map Event.startHook)
          ++ (cleanup { c with pid := env.pid }).2)

/-- `Output` (command/shell.go lines 312-336): cleanup deferred; recorded
error first; then the pre-flight stdout check; then stdout is bound to the
capture buffer and, when stderr is unbound, stderr to the bounded saver;
then `Run` (whose own deferred cleanup runs before the outer one). -/
def Output (c : CommandState) (env : ExecEnv) : Option CmdError × CommandState × List Event :=
  match c.lastError with
  | some e => (some e, (cleanup c).1, (cleanup c).2)
  | none =>
    if c.stdoutSet then
      (some CmdError.stdoutAlreadySet, (cleanup c).1, (cleanup c).2)
    else
      let c2 : CommandState :=
        if c.stderrSet then { c with stdoutSet := true }
        else { c with stdoutSet := true, stderrSet := true }
      ((Run c2 env).1,
        (cleanup (Run c2 env).2.1).1,
        (Run c2 env).2.2 ++ (cleanup (Run c2 env).2.1).2)

/-- `CombinedOutput` (command/shell.go lines 340-357): like `Output` with a
pre-flight check on both streams, then both bound to one buffer. -/
def CombinedOutput (c : CommandState) (env : ExecEnv) : Option CmdError × CommandState × List Event :=
  match c.lastError with
  | some e => (some e, (cleanup c).1, (cleanup c).2)
  | none =>
    if c.stdoutSet then
      (some CmdError.stdoutAlreadySet, (cleanup c).1, (cleanup c).2)
    else if c.stderrSet then
      (some CmdError.stderrAlreadySet, (cleanup c).1, (cleanup c).2)
    else
      let c2 : CommandState := { c with stdoutSet := true, stderrSet := true }
      ((Run c2 env).1,
        (cleanup (Run c2 env).2.1).1,
        (Run c2 env).2.2 ++ (cleanup (Run c2 env).2.1).2)

/-- Outcome of the user lookup consumed by `AsUser`: the windows platform
check, a `user.Lookup` failure, a `strconv.ParseUint` failure on the uid,
or a resolved numeric uid with home directory. -/
inductive AsUserOutcome
  | windows
  | lookupFail (id : Nat)
  | parseFail (id : Nat)
  | ok (uid : Nat) (home : List Char)
deriving DecidableEq

/-- The HOME fix-up of `AsUser`: every env entry with the HOME= key is
rewritten to the resolved home; when none is present one is appended. -/
def fixHome (home : List Char) (envs : List (List Char)) : List (List Char) :=
  let replaced := envs.map fun v =>
    if (("HOME=").toList).isPrefixOf v then ("HOME=").toList ++ home else v
  if envs.any fun v => (("HOME=").toList).isPrefixOf v then replaced
  else replaced ++ [("HOME=").toList ++ home]

/-- `AsUser` (the non-windows file of the package): each failure records an
error on the handle instead of raising; success stores the credential uid
and fixes the HOME entry of the environment. -/
def AsUser (c : CommandState) (o : AsUserOutcome) : CommandState :=
  match o with
  | AsUserOutcome.windows => { c with lastError := some CmdError.asUserWindows }
  | AsUserOutcome.lookupFail id => { c with lastError := some (CmdError.asUserLookup id) }
  | AsUserOutcome.parseFail id => { c with lastError := some (CmdError.asUserParse id) }
  | AsUserOutcome.ok uid home => { c with credUid := some uid, env := fixHome home c.env }

/-- The process-start events of a trace. -/
def startedEvents (evs : List Event) : List Event :=
  evs.filter fun e =>
    match e with
    | Event.started _ => true
    | _ => false

/-- The exit-hook identities of a trace, in invocation order. -/
def exitHookIds (evs : List Event) : List Nat :=
  evs.filterMap fun e =>
    match e with
    | Event.exitHook h => some h
    | _ => none

theorem startedEvents_append (xs ys : List Event) :
    startedEvents (xs ++ ys) = startedEvents xs ++ startedEvents ys := by
  simp [startedEvents, List.filter_append]

theorem startedEvents_exitHooks (l : List Nat) :
    startedEvents (l.map Event.exitHook) = [] := by
  induction l with
  | nil => rfl
  | cons x t ih =>
    simp only [List.map_cons, startedEvents, List.filter_cons] at ih ⊢
    exact ih

theorem startedEvents_cleanup (c : CommandState) :
    startedEvents (cleanup c).2 = [] := by
  by_cases hc : c.cancelSet
  · have hev : (cleanup c).2 = c.onexit.map Event.exitHook ++ [Event.cancel] := by
      simp [cleanup, hc]
    rw [hev, startedEvents_append, startedEvents_exitHooks c.onexit]
    rfl
  · have hev : (cleanup c).2 = c.onexit.map Event.exitHook := by
      simp [cleanup, hc]
    rw [hev, startedEvents_exitHooks c.onexit]

theorem exitHookIds_append (xs ys : List Event) :
    exitHookIds (xs ++ ys) = exitHookIds xs ++ exitHookIds ys := by
  simp [exitHookIds, List.filterMap_append]

theorem exitHookIds_exitHooks (l : List Nat) :
    exitHookIds (l.map Event.exitHook) = l := by
  induction l with
  | nil => rfl
  | cons x t ih =>
    simp only [List.map_cons, exitHookIds, List.filterMap_cons] at ih ⊢
    rw [ih]

theorem exitHookIds_cleanup (c : CommandState) :
    exitHookIds (cleanup c).2 = c.onexit := by
  by_cases hc : c.cancelSet
  · have hev : (cleanup c).2 = c.onexit.map Event.exitHook ++ [Event.cancel] := by
      simp [cleanup, hc]
    rw [hev, exitHookIds_append, exitHookIds_exitHooks c.onexit]
    simp [exitHookIds, List.filterMap]
  · have hev : (cleanup c).2 = c.onexit.map Event.exitHook := by
      simp [cleanup, hc]
    rw [hev, exitHookIds_exitHooks c.onexit]

theorem cleanupN_no_hooks (n : Nat) :
    ∀ c : CommandState, c.onexit = [] →
      exitHookIds (cleanupN n c).2 = [] ∧ (cleanupN n c).1.onexit = [] := by
  induction n with
  | zero =>
    intro c hc
    exact ⟨rfl, hc⟩
  | succ m ih =>
    intro c hc
    have hclean : exitHookIds (cleanup c).2 = [] := by
      rw [exitHookIds_cleanup, hc]
    have hstate : (cleanup c).1.onexit = [] := rfl
    have hrec := ih (cleanup c).1 hstate
    constructor
    · rw [cleanupN]
      rw [exitHookIds_append, hclean, hrec.1]
      rfl
    · rw [cleanupN]
      exact hrec.2

/-- The SIGKILL signal number. -/
def SIGKILL : Nat := 9

/-- Outcome of the `syscall.Kill` delivery, an abstract error identity when
it fails. -/
structure KillEnv where
  killFail : Option Nat
deriving DecidableEq

/-- What the kill hook did: the signal it sent (target pid as passed to the
syscall, signal number) and the diagnostic written to standard error. -/
structure KillEffect where
  signalSent : Option (Int × Nat)
  stderrLog : Option Nat
deriving DecidableEq

/-- The `killChild` closure returned by `initCmd` (the non-windows file of
the package): it returns early unless a pid was recorded and the context
carries an error; otherwise it kills the process group by the negated pid
with SIGKILL and, when delivery fails, prints the failure to standard
error.  The closure returns nothing, so no error can reach the caller. -/
def killChild (pid : Nat) (ctxErr : Option Nat) (e : KillEnv) : KillEffect :=
  if pid = 0 ∨ ctxErr = none then ⟨none, none⟩
  else ⟨some (-(pid : Int), SIGKILL), e.killFail⟩

/-- C7.  Binding standard output before `Output`, or either stream before
`CombinedOutput`, fails pre-flight: the operation returns a non-nil error,
its trace contains no process start, and the handle is exactly what one
cleanup pass (the deferred one) leaves of the untouched state. -/
theorem claim7_preflight_stream_guard (c : CommandState) (env : ExecEnv) :
    (c.stdoutSet = true →
      (Output c env).1 ≠ none ∧
      startedEvents (Output c env).2.2 = [] ∧
      (Output c env).2.1 = (cleanup c).1) ∧
    (c.stdoutSet = true ∨ c.stderrSet = true →
      (CombinedOutput c env).1 ≠ none ∧
      startedEvents (CombinedOutput c env).2.2 = [] ∧
      (CombinedOutput c env).2.1 = (cleanup c).1) := by
  constructor
  · intro h
    cases hL : c.lastError with
    | some e => simp [Output, hL, startedEvents_cleanup]
    | none => simp [Output, hL, h, startedEvents_cleanup]
  · intro h
    cases hL : c.lastError with
    | some e => simp [CombinedOutput, hL, startedEvents_cleanup]
    | none =>
      by_cases h2 : c.stdoutSet = true
      · simp [CombinedOutput, hL, h2, startedEvents_cleanup]
      · have h3 : c.stderrSet = true := by
          rcases h with h | h
          · exact absurd h h2
          · exact h
        simp [CombinedOutput, hL, h2, h3, startedEvents_cleanup]

/-- C7 witness: the theorem at a handle with stdout already bound and at a
handle with stderr already bound. -/
theorem claim7_witness :
    ((Output ⟨none, true, false, [], [4], 0, true, none, []⟩ ⟨none, 7, none⟩).1 ≠ none ∧
      startedEvents (Output ⟨none, true, false, [], [4], 0, true, none, []⟩ ⟨none, 7, none⟩).2.2 = [] ∧
      (Output ⟨none, true, false, [], [4], 0, true, none, []⟩ ⟨none, 7, none⟩).2.1
        = (cleanup ⟨none, true, false, [], [4], 0, true, none, []⟩).1) ∧
    ((CombinedOutput ⟨none, false, true, [], [4], 0, true, none, []⟩ ⟨none, 7, none⟩).1 ≠ none ∧
      startedEvents (CombinedOutput ⟨none, false, true, [], [4], 0, true, none, []⟩ ⟨none, 7, none⟩).2.2 = [] ∧
      (CombinedOutput ⟨none, false, true, [], [4], 0, true, none, []⟩ ⟨none, 7, none⟩).2.1
        = (cleanup ⟨none, false, true, [], [4], 0, true, none, []⟩).1) :=
  ⟨(claim7_preflight_stream_guard ⟨none, true, false, [], [4], 0, true, none, []⟩ ⟨none, 7, none⟩).1 rfl,
    (claim7_preflight_stream_guard ⟨none, false, true, [], [4], 0, true, none, []⟩ ⟨none, 7, none⟩).2
      (Or.inr rfl)⟩

/-- C8.  A recorded configuration error short-circuits every terminal
operation: `Run`, `Output` and `CombinedOutput` return exactly the recorded
error and start no process; and each `AsUser` failure mode (unsupported
platform, unknown user, unparsable uid) records such an error on the
handle. -/
theorem claim8_lastError_short_circuit (c : CommandState) (env : ExecEnv)
    (e : CmdError) (h : c.lastError = some e) :
    ((Run c env).1 = some e ∧ startedEvents (Run c env).2.2 = []) ∧
    ((Output c env).1 = some e ∧ startedEvents (Output c env).2.2 = []) ∧
    ((CombinedOutput c env).1 = some e ∧ startedEvents (CombinedOutput c env).2.2 = []) ∧
    (∀ (c2 : CommandState) (id : Nat),
      (AsUser c2 AsUserOutcome.windows).lastError = some CmdError.asUserWindows ∧
      (AsUser c2 (AsUserOutcome.lookupFail id)).lastError = some (CmdError.asUserLookup id) ∧
      (AsUser c2 (AsUserOutcome.parseFail id)).lastError = some (CmdError.asUserParse id)) := by
  refine ⟨?_, ?_, ?_, ?_⟩
  · simp [Run, h, startedEvents_cleanup]
  · simp [Output, h, startedEvents_cleanup]
  · simp [CombinedOutput, h, startedEvents_cleanup]
  · intro c2 id
    exact ⟨rfl, rfl, rfl⟩

/-- C8 witness: the theorem at a handle carrying a recorded error. -/
theorem claim8_witness :
    (Run ⟨some (CmdError.recorded 3), false, false, [], [], 0, true, none, []⟩ ⟨none, 7, none⟩).1
        = some (CmdError.recorded 3) ∧
    (Output ⟨some (CmdError.recorded 3), false, false, [], [], 0, true, none, []⟩ ⟨none, 7, none⟩).1
        = some (CmdError.recorded 3) ∧
    (CombinedOutput ⟨some (CmdError.recorded 3), false, false, [], [], 0, true, none, []⟩ ⟨none, 7, none⟩).1
        = some (CmdError.recorded 3) :=
  ⟨((claim8_lastError_short_circuit
      ⟨some (CmdError.recorded 3), false, false, [], [], 0, true, none, []⟩
      ⟨none, 7, none⟩ (CmdError.recorded 3) rfl).1).1,
    ((claim8_lastError_short_circuit
      ⟨some (CmdError.recorded 3), false, false, [], [], 0, true, none, []⟩
      ⟨none, 7, none⟩ (CmdError.recorded 3) rfl).2.1).1,
    ((claim8_lastError_short_circuit
      ⟨some (CmdError.recorded 3), false, false, [], [], 0, true, none, []⟩
      ⟨none, 7, none⟩ (CmdError.recorded 3) rfl).2.2.1).1⟩

/-- C9.  Exit hooks run exactly once however often cleanup is triggered:
cleanup clears the hook list (under the mutex) before invoking its
snapshot, so the combined trace of any positive number of sequential
cleanup triggers invokes exactly the registered hooks, in registration
order, and the surviving hook list is empty. -/
theorem claim9_hooks_exactly_once (c : CommandState) (fs : List Nat) (n : Nat) :
    (cleanup (OnExit c fs)).1.onexit = [] ∧
    exitHookIds (cleanupN (n + 1) (OnExit c fs)).2 = c.onexit ++ fs := by
  constructor
  · rfl
  · rw [cleanupN, exitHookIds_append, exitHookIds_cleanup]
    rw [(cleanupN_no_hooks n (cleanup (OnExit c fs)).1 rfl).1]
    simp [OnExit]

/-- C9 witness: the theorem at a handle with one registered hook, one hook
added through OnExit and two cleanup triggers. -/
theorem claim9_witness :
    (cleanup (OnExit ⟨none, false, false, [], [4], 0, true, none, []⟩ [5])).1.onexit = [] ∧
    exitHookIds (cleanupN 2 (OnExit ⟨none, false, false, [], [4], 0, true, none, []⟩ [5])).2
      = [4] ++ [5] :=
  claim9_hooks_exactly_once ⟨none, false, false, [], [4], 0, true, none, []⟩ [5] 1

/-- C10.  The kill hook installed by `initCmd` sends the forceful
termination signal to the whole process group through the negated pid, and
only when a pid was recorded and the handle context is cancelled; a
delivery failure goes to the standard-error diagnostic sink (the hook has
no error channel back to the caller). -/
theorem claim10_group_kill (pid : Nat) (ctxErr : Option Nat) (env : KillEnv) :
    ((pid = 0 ∨ ctxErr = none) → killChild pid ctxErr env = ⟨none, none⟩) ∧
    (pid ≠ 0 → ctxErr ≠ none →
      (killChild pid ctxErr env).signalSent = some (-(pid : Int), SIGKILL) ∧
      (killChild pid ctxErr env).stderrLog = env.killFail) := by
  constructor
  · intro h
    simp [killChild, h]
  · intro h1 h2
    have hng : ¬(pid = 0 ∨ ctxErr = none) := by
      intro hor
      rcases hor with hor | hor
      · exact h1 hor
      · exact h2 hor
    rw [killChild, if_neg hng]
    exact ⟨rfl, rfl⟩

/-- C10 witness: the theorem at a stopped-guard instance and at a cancelled
running instance with a failing kill delivery. -/
theorem claim10_witness :
    killChild 0 (some 1) ⟨some 2⟩ = ⟨none, none⟩ ∧
    (killChild 5 (some 1) ⟨some 2⟩).signalSent = some (-(5 : Int), SIGKILL) ∧
    (killChild 5 (some 1) ⟨some 2⟩).stderrLog = some 2 :=
  ⟨(claim10_group_kill 0 (some 1) ⟨some 2⟩).1 (Or.inl rfl),
    ((claim10_group_kill 5 (some 1) ⟨some 2⟩).2 (by decide) (by decide)).1,
    ((claim10_group_kill 5 (some 1) ⟨some 2⟩).2 (by decide) (by decide)).2⟩

end BetterCommand
